import Mathlib

/-!
Verification of the vhmqueueboard client/server logic.

The definitions below are a shallow embedding of the repository's
TypeScript sources:

* `src/components/QueueBoard.tsx` — the client view state and the
  checkbox / reorder handlers (`handleCheckboxChange`), the fetch
  reconciliation (`fetchEntries`);
* the Pusher variant of the board component — lock tables,
  `entry-updated` / `sync-all` broadcast handlers;
* `src/app/api/queue/route.ts` — `GET` (list) and `POST` (initialize);
* `src/app/api/queue/[id]/route.ts` — `PATCH` (partial update) and
  `DELETE` (clear text);
* `src/lib/rateLimit.ts` — the in-memory rate limiter.

Timestamps are `Nat` milliseconds.  JavaScript `Map` iteration order is
first-insertion order of keys; everywhere the code sorts those keys
numerically afterwards, so a `dedup` followed by `insertionSort` yields
the same list.
-/

namespace VHMBoard

/-- Cabinet side: the string field `side ∈ {"left", "right"}`. -/
inductive Side
  | left
  | right
deriving DecidableEq, Repr

/-- Player position within a row: the string field `position ∈ {"P1", "P2"}`. -/
inductive Pos
  | P1
  | P2
deriving DecidableEq, Repr

/-- One grid cell: the `QueueEntry` record (client interface and Prisma row). -/
structure Entry where
  id : Nat
  rowIndex : Nat
  side : Side
  position : Pos
  text : String
  checked : Bool
  updatedAt : Nat
deriving DecidableEq, Repr

/-- The client view is the `entries` React state: a flat list of entries. -/
abbrev View := List Entry

/-! ### Checkbox handlers

`handleCheckboxChange` in `QueueBoard.tsx` has two branches.  The
`checked` branch is the same optimistic update in both component
versions: the target row becomes checked, every other previously
checked entry on the side becomes unchecked. -/

/-- Optimistic view update of the `checked = true` branch of
`handleCheckboxChange` (QueueBoard.tsx lines 588-597, and the identical
map in the Pusher variant). -/
def applyCheck (view : View) (rowIndex : Nat) (side : Side) : View :=
  view.map fun e =>
    if e.side = side then
      if e.rowIndex = rowIndex then { e with checked := true }
      else if e.checked then { e with checked := false }
      else e
    else e

/-- Distinct row indices present on a side, ascending — the
`sortedRowIndices` computed from the `rowGroups` map keys. -/
def sortedRowIndices (view : View) (side : Side) : List Nat :=
  (((view.filter fun e => e.side = side).map (·.rowIndex)).dedup).insertionSort (· ≤ ·)

/-- Sequential index assignment: the `for (const oldRowIndex of
otherRowIndices) { newIndices.set(oldRowIndex, newRowIndex); newRowIndex++ }`
loop, as an association list. -/
def assignIndices : List Nat → Nat → List (Nat × Nat)
  | [], _ => []
  | x :: xs, n => (x, n) :: assignIndices xs (n + 1)

/-- Association-list lookup (the `newIndices.get(...)` call). -/
def lookupIdx : List (Nat × Nat) → Nat → Option Nat
  | [], _ => none
  | (k, v) :: rest, x => if x = k then some v else lookupIdx rest x

/-- The full `newIndices` map built by the uncheck branch: other rows get
0, 1, 2, … in ascending row order, then the unchecked row gets the next
free index. -/
def newIndicesList (sorted : List Nat) (target : Nat) : List (Nat × Nat) :=
  let other := sorted.filter fun i => i ≠ target
  assignIndices other 0 ++ [(target, other.length)]

/-- The body of the optimistic `setEntries` map in the uncheck branch:
remap the row index through `newIndices`, and uncheck the target row. -/
def uncheckEntry (idxMap : List (Nat × Nat)) (rowIndex : Nat) (side : Side)
    (e : Entry) : Entry :=
  if e.side = side then
    match lookupIdx idxMap e.rowIndex with
    | some newIdx =>
        { e with rowIndex := newIdx,
                 checked := if e.rowIndex = rowIndex then false else e.checked }
    | none => e
  else e

/-- Optimistic view update of the `checked = false` branch of
`handleCheckboxChange` (QueueBoard.tsx lines 612-650): reorder every row
on the side through `newIndices`, unchecking the target row; texts travel
with their entries untouched. -/
def applyUncheck (view : View) (rowIndex : Nat) (side : Side) : View :=
  view.map (uncheckEntry (newIndicesList (sortedRowIndices view side) rowIndex) rowIndex side)

/-- The `handleCheckboxChange` view transition of `QueueBoard.tsx`
(polling version, lines 585-678). -/
def handleCheckboxChange (view : View) (rowIndex : Nat) (side : Side)
    (checked : Bool) : View :=
  if checked then applyCheck view rowIndex side else applyUncheck view rowIndex side

/-- Optimistic update of the `checked = false` branch in the Pusher
variant of the component: only uncheck the target row, no reorder. -/
def applyUncheckPusher (view : View) (rowIndex : Nat) (side : Side) : View :=
  view.map fun e =>
    if e.side = side ∧ e.rowIndex = rowIndex then { e with checked := false } else e

/-- The `handleCheckboxChange` view transition of the Pusher variant of
the component (lines 317-453 there). -/
def handleCheckboxChangePusher (view : View) (rowIndex : Nat) (side : Side)
    (checked : Bool) : View :=
  if checked then applyCheck view rowIndex side else applyUncheckPusher view rowIndex side

/-- One user toggle: target row, checked flag, and which component
version handles it (`true` = polling version with reorder, `false` =
Pusher variant). -/
def toggleStep (view : View) (side : Side) (op : Nat × Bool × Bool) : View :=
  if op.2.2 then handleCheckboxChange view op.1 side op.2.1
  else handleCheckboxChangePusher view op.1 side op.2.1

/-- A sequence of toggles applied to one side. -/
def runToggles (view : View) (side : Side) (ops : List (Nat × Bool × Bool)) : View :=
  ops.foldl (fun v op => toggleStep v side op) view

/-- The per-side exclusivity invariant: any two checked entries on the
side sit in the same row-group. -/
def atMostOneCheckedRow (view : View) (side : Side) : Prop :=
  ∀ e₁ ∈ view, ∀ e₂ ∈ view,
    e₁.side = side → e₂.side = side → e₁.checked = true → e₂.checked = true →
      e₁.rowIndex = e₂.rowIndex

instance (view : View) (side : Side) : Decidable (atMostOneCheckedRow view side) := by
  unfold atMostOneCheckedRow
  infer_instance

/-! ### Exclusivity lemmas (claim C1) -/

theorem applyCheck_exclusive (view : View) (t : Nat) (s : Side) :
    atMostOneCheckedRow (applyCheck view t s) s := by
  intro e₁ h₁ e₂ h₂ hs₁ hs₂ hc₁ hc₂
  simp only [applyCheck, List.mem_map] at h₁ h₂
  obtain ⟨a₁, -, rfl⟩ := h₁
  obtain ⟨a₂, -, rfl⟩ := h₂
  have key : ∀ a : Entry,
      ((if a.side = s then
          if a.rowIndex = t then { a with checked := true }
          else if a.checked = true then { a with checked := false }
          else a
        else a) : Entry).side = s →
      ((if a.side = s then
          if a.rowIndex = t then { a with checked := true }
          else if a.checked = true then { a with checked := false }
          else a
        else a) : Entry).checked = true →
      ((if a.side = s then
          if a.rowIndex = t then { a with checked := true }
          else if a.checked = true then { a with checked := false }
          else a
        else a) : Entry).rowIndex = t := by
    intro a
    split_ifs <;> simp_all
  rw [key a₁ hs₁ hc₁, key a₂ hs₂ hc₂]

theorem uncheckEntry_side (m : List (Nat × Nat)) (t : Nat) (s : Side) (e : Entry) :
    (uncheckEntry m t s e).side = e.side := by
  unfold uncheckEntry
  split
  · split <;> rfl
  · rfl

theorem uncheckEntry_checked_imp (m : List (Nat × Nat)) (t : Nat) (s : Side)
    (e : Entry) (h : (uncheckEntry m t s e).checked = true) : e.checked = true := by
  unfold uncheckEntry at h
  split at h
  · split at h
    · simp only at h
      split at h
      · exact absurd h (by simp)
      · exact h
    · exact h
  · exact h

theorem uncheckEntry_row_congr (m : List (Nat × Nat)) (t : Nat) (s : Side)
    (e₁ e₂ : Entry) (hs₁ : e₁.side = s) (hs₂ : e₂.side = s)
    (hr : e₁.rowIndex = e₂.rowIndex) :
    (uncheckEntry m t s e₁).rowIndex = (uncheckEntry m t s e₂).rowIndex := by
  unfold uncheckEntry
  rw [if_pos hs₁, if_pos hs₂, hr]
  cases lookupIdx m e₂.rowIndex <;> simp [hr]

theorem applyUncheck_exclusive (view : View) (t : Nat) (s : Side)
    (h : atMostOneCheckedRow view s) :
    atMostOneCheckedRow (applyUncheck view t s) s := by
  intro e₁ h₁ e₂ h₂ hs₁ hs₂ hc₁ hc₂
  simp only [applyUncheck, List.mem_map] at h₁ h₂
  obtain ⟨a₁, ha₁, rfl⟩ := h₁
  obtain ⟨a₂, ha₂, rfl⟩ := h₂
  rw [uncheckEntry_side] at hs₁ hs₂
  exact uncheckEntry_row_congr _ t s a₁ a₂ hs₁ hs₂
    (h a₁ ha₁ a₂ ha₂ hs₁ hs₂
      (uncheckEntry_checked_imp _ t s a₁ hc₁)
      (uncheckEntry_checked_imp _ t s a₂ hc₂))

theorem applyUncheckPusher_exclusive (view : View) (t : Nat) (s : Side)
    (h : atMostOneCheckedRow view s) :
    atMostOneCheckedRow (applyUncheckPusher view t s) s := by
  intro e₁ h₁ e₂ h₂ hs₁ hs₂ hc₁ hc₂
  simp only [applyUncheckPusher, List.mem_map] at h₁ h₂
  obtain ⟨a₁, ha₁, rfl⟩ := h₁
  obtain ⟨a₂, ha₂, rfl⟩ := h₂
  have key : ∀ a : Entry,
      ((if a.side = s ∧ a.rowIndex = t then { a with checked := false } else a) :
        Entry).side = a.side ∧
      ((if a.side = s ∧ a.rowIndex = t then { a with checked := false } else a) :
        Entry).rowIndex = a.rowIndex ∧
      (((if a.side = s ∧ a.rowIndex = t then { a with checked := false } else a) :
        Entry).checked = true → a.checked = true) := by
    intro a
    split_ifs <;> simp_all
  obtain ⟨ks₁, kr₁, kc₁⟩ := key a₁
  obtain ⟨ks₂, kr₂, kc₂⟩ := key a₂
  rw [kr₁, kr₂]
  exact h a₁ ha₁ a₂ ha₂ (ks₁ ▸ hs₁) (ks₂ ▸ hs₂) (kc₁ hc₁) (kc₂ hc₂)

theorem toggleStep_exclusive (view : View) (side : Side) (op : Nat × Bool × Bool)
    (h : atMostOneCheckedRow view side) :
    atMostOneCheckedRow (toggleStep view side op) side := by
  unfold toggleStep handleCheckboxChange handleCheckboxChangePusher
  split_ifs
  · exact applyCheck_exclusive view op.1 side
  · exact applyUncheck_exclusive view op.1 side h
  · exact applyCheck_exclusive view op.1 side
  · exact applyUncheckPusher_exclusive view op.1 side h

/-- Claim C1: for every sequence of toggleChecked operations on a given
side (through either version of the handler), starting from a view where
at most one row-group on that side is checked, at most one row-group on
that side is checked after each operation settles.  The statement
quantifies over all operation sequences, so it covers every intermediate
settled state as well. -/
theorem checkbox_exclusivity_preserved (view : View) (side : Side)
    (ops : List (Nat × Bool × Bool)) (h : atMostOneCheckedRow view side) :
    atMostOneCheckedRow (runToggles view side ops) side := by
  induction ops generalizing view with
  | nil => exact h
  | cons op ops ih => exact ih (toggleStep view side op) (toggleStep_exclusive view side op h)

/-- A 2-row demonstration view for the exclusivity witness: row 0 on the
left side is checked. -/
def demoView : View :=
  [⟨1, 0, .left, .P1, "alice", true, 0⟩, ⟨2, 0, .left, .P2, "bob", true, 0⟩,
   ⟨3, 1, .left, .P1, "carol", false, 0⟩, ⟨4, 1, .left, .P2, "", false, 0⟩]

theorem checkbox_exclusivity_preserved_witness :
    atMostOneCheckedRow demoView .left ∧
      atMostOneCheckedRow
        (runToggles demoView .left [(1, true, true), (1, false, true), (0, true, false)])
        .left :=
  ⟨by decide,
    checkbox_exclusivity_preserved demoView .left
      [(1, true, true), (1, false, true), (0, true, false)] (by decide)⟩

/-! ### Reorder content preservation (claim C2)

The extraction of the user-visible view: `getEntry(rowIndex, side,
position)` in the component is a `find` over the flat entry list, and
the rendered rows are the row-groups in ascending row order. -/

/-- The `getEntry` lookup of the component. -/
def findSlot (view : View) (r : Nat) (side : Side) (p : Pos) : Option Entry :=
  view.find? fun e => decide (e.rowIndex = r) && decide (e.side = side) && decide (e.position = p)

/-- The (text_P1, text_P2) pair displayed for row `r` of a side. -/
def textPairAt (view : View) (side : Side) (r : Nat) : Option String × Option String :=
  ((findSlot view r side .P1).map (·.text), (findSlot view r side .P2).map (·.text))

/-- The rendered column of text pairs of a side, rows in ascending order. -/
def textPairs (view : View) (side : Side) : List (Option String × Option String) :=
  (sortedRowIndices view side).map (textPairAt view side)

/-- The row that lands at the new position `j` of the reordered side:
position `j < k` shows the j-th remaining row and position `k` shows the
unchecked row itself. -/
def oldOf (S : List Nat) (r j : Nat) : Nat :=
  (S.filter fun i => i ≠ r).getD j r

theorem find?_congr_mem {α : Type} {p q : α → Bool} :
    ∀ l : List α, (∀ a ∈ l, p a = q a) → l.find? p = l.find? q := by
  intro l
  induction l with
  | nil => intro _; rfl
  | cons a l ih =>
    intro h
    have ha := h a (by simp)
    by_cases hpa : p a = true
    · rw [List.find?_cons_of_pos _ hpa, List.find?_cons_of_pos _ (ha ▸ hpa)]
    · rw [List.find?_cons_of_neg _ hpa, List.find?_cons_of_neg _ (ha ▸ hpa)]
      exact ih fun x hx => h x (by simp [hx])

theorem eraseIdx_map_comm {α β : Type} (f : α → β) :
    ∀ (l : List α) (i : Nat), (l.map f).eraseIdx i = (l.eraseIdx i).map f := by
  intro l
  induction l with
  | nil => intro i; rfl
  | cons a l ih =>
    intro i
    cases i with
    | zero => rfl
    | succ i => simp [List.eraseIdx, ih i]

theorem eraseIdx_indexOf_eq_filter :
    ∀ (l : List Nat), l.Nodup → ∀ r : Nat,
      l.eraseIdx (l.indexOf r) = l.filter fun x => x ≠ r := by
  intro l
  induction l with
  | nil => intro _ r; rfl
  | cons a l ih =>
    intro hnd r
    rw [List.nodup_cons] at hnd
    by_cases har : a = r
    · subst har
      rw [List.indexOf_cons_self]
      simp only [List.eraseIdx, List.filter_cons]
      have : (decide (a ≠ a)) = false := by simp
      rw [this]
      exact ((List.filter_eq_self).mpr fun x hx => by
        simp only [decide_eq_true_eq]
        exact fun hxa => hnd.1 (hxa ▸ hx)).symm
    · rw [List.indexOf_cons_ne _ har]
      simp only [List.eraseIdx, List.filter_cons]
      have : (decide (a ≠ r)) = true := by simpa using har
      rw [this, ih hnd.2 r]
      simp

theorem map_getD_range {α β : Type} (f : α → β) (d : α) :
    ∀ l : List α, (List.range l.length).map (fun j => f (l.getD j d)) = l.map f := by
  intro l
  induction l with
  | nil => rfl
  | cons a l ih =>
    rw [List.length_cons, List.range_succ_eq_map, List.map_cons, List.map_map, List.map_cons]
    rw [show ((fun j => f ((a :: l).getD j d)) ∘ Nat.succ) = fun j => f (l.getD j d) from rfl, ih]
    rfl

theorem perm_eraseIdx_append {α : Type} :
    ∀ (l : List α) (i : Nat) (h : i < l.length),
      l.Perm (l.eraseIdx i ++ [l.get ⟨i, h⟩]) := by
  intro l
  induction l with
  | nil => intro i h; exact absurd h (by simp)
  | cons a l ih =>
    intro i h
    cases i with
    | zero =>
      simpa [List.eraseIdx] using (@List.perm_append_comm _ [a] l)
    | succ i =>
      simp only [List.eraseIdx, List.cons_append, List.get]
      exact (ih i (by simpa using h)).cons a

theorem lookupIdx_append_of_some {a b : List (Nat × Nat)} {x v : Nat}
    (h : lookupIdx a x = some v) : lookupIdx (a ++ b) x = some v := by
  induction a with
  | nil => exact absurd h (by simp [lookupIdx])
  | cons kv a ih =>
    obtain ⟨k, w⟩ := kv
    simp only [lookupIdx, List.cons_append] at h ⊢
    split at h
    · rw [if_pos (by assumption)]
      exact h
    · rw [if_neg (by assumption)]
      exact ih h

theorem lookupIdx_append_of_none {a : List (Nat × Nat)} {x : Nat}
    (h : lookupIdx a x = none) (b : List (Nat × Nat)) :
    lookupIdx (a ++ b) x = lookupIdx b x := by
  induction a with
  | nil => rfl
  | cons kv a ih =>
    obtain ⟨k, w⟩ := kv
    simp only [lookupIdx, List.cons_append] at h ⊢
    split at h
    · exact absurd h (by simp)
    · rw [if_neg (by assumption)]
      exact ih h

theorem lookupIdx_assign_not_mem :
    ∀ (l : List Nat) (n x : Nat), x ∉ l → lookupIdx (assignIndices l n) x = none := by
  intro l
  induction l with
  | nil => intro n x _; rfl
  | cons a l ih =>
    intro n x hx
    simp only [assignIndices, lookupIdx]
    rw [if_neg (by intro h; exact hx (h ▸ List.mem_cons_self a l))]
    exact ih (n + 1) x fun h => hx (List.mem_cons_of_mem a h)

theorem lookupIdx_assign_get :
    ∀ (l : List Nat), l.Nodup → ∀ (n i : Nat) (hi : i < l.length),
      lookupIdx (assignIndices l n) (l.get ⟨i, hi⟩) = some (n + i) := by
  intro l
  induction l with
  | nil => intro _ n i hi; exact absurd hi (by simp)
  | cons a l ih =>
    intro hnd n i hi
    rw [List.nodup_cons] at hnd
    cases i with
    | zero => simp [assignIndices, lookupIdx]
    | succ i =>
      simp only [assignIndices, lookupIdx, List.get]
      have hmem : l.get ⟨i, by simpa using hi⟩ ∈ l := List.get_mem l i _
      rw [if_neg (by intro h; exact hnd.1 (h ▸ hmem))]
      rw [ih hnd.2 (n + 1) i (by simpa using hi)]
      congr 1
      omega

theorem lookupIdx_assign_inv :
    ∀ (l : List Nat) (n x j : Nat), lookupIdx (assignIndices l n) x = some j →
      ∃ i, ∃ hi : i < l.length, j = n + i ∧ l.get ⟨i, hi⟩ = x := by
  intro l
  induction l with
  | nil => intro n x j h; exact absurd h (by simp [assignIndices, lookupIdx])
  | cons a l ih =>
    intro n x j h
    simp only [assignIndices, lookupIdx] at h
    split at h
    · refine ⟨0, by simp, by simpa using h.symm, ?_⟩
      simp [*]
    · obtain ⟨i, hi, hj, hget⟩ := ih (n + 1) x j h
      exact ⟨i + 1, by simpa using hi, by omega, hget⟩

theorem sortedRowIndices_nodup (view : View) (side : Side) :
    (sortedRowIndices view side).Nodup :=
  (List.perm_insertionSort _ _).nodup_iff.mpr (List.nodup_dedup _)

theorem sortedRowIndices_sorted (view : View) (side : Side) :
    (sortedRowIndices view side).Sorted (· ≤ ·) :=
  List.sorted_insertionSort _ _

theorem mem_sortedRowIndices {view : View} {side : Side} {x : Nat} :
    x ∈ sortedRowIndices view side ↔ ∃ e ∈ view, e.side = side ∧ e.rowIndex = x := by
  unfold sortedRowIndices
  rw [(List.perm_insertionSort _ _).mem_iff, List.mem_dedup, List.mem_map]
  constructor
  · rintro ⟨e, he, rfl⟩
    rw [List.mem_filter] at he
    exact ⟨e, he.1, by simpa using he.2, rfl⟩
  · rintro ⟨e, he, hs, rfl⟩
    exact ⟨e, List.mem_filter.mpr ⟨he, by simpa using hs⟩, rfl⟩

theorem lookup_newIndices_target (S : List Nat) (r : Nat) :
    lookupIdx (newIndicesList S r) r = some ((S.filter fun i => i ≠ r).length) := by
  unfold newIndicesList
  rw [lookupIdx_append_of_none
    (lookupIdx_assign_not_mem _ 0 r (by simp [List.mem_filter]))]
  simp [lookupIdx]

theorem lookup_newIndices_other (S : List Nat) (hS : S.Nodup) (r i : Nat)
    (hi : i < (S.filter fun i => i ≠ r).length) :
    lookupIdx (newIndicesList S r) ((S.filter fun i => i ≠ r).get ⟨i, hi⟩) = some i := by
  unfold newIndicesList
  rw [lookupIdx_append_of_some (lookupIdx_assign_get _ (hS.filter _) 0 i hi)]
  simp

theorem lookup_newIndices_inv (S : List Nat) (r x j : Nat)
    (h : lookupIdx (newIndicesList S r) x = some j) :
    (∃ hj : j < (S.filter fun i => i ≠ r).length,
        (S.filter fun i => i ≠ r).get ⟨j, hj⟩ = x) ∨
      (x = r ∧ j = (S.filter fun i => i ≠ r).length) := by
  unfold newIndicesList at h
  cases hassign : lookupIdx (assignIndices (S.filter fun i => i ≠ r) 0) x with
  | some v =>
    obtain ⟨i, hi, hji, hget⟩ := lookupIdx_assign_inv _ 0 x v hassign
    rw [lookupIdx_append_of_some hassign] at h
    have hvj : v = j := by simpa using h
    have hij : j = i := by omega
    refine Or.inl ⟨by omega, ?_⟩
    subst hij
    exact hget
  | none =>
    rw [lookupIdx_append_of_none hassign] at h
    simp only [lookupIdx] at h
    split at h
    · exact Or.inr ⟨by assumption, by simpa using h.symm⟩
    · exact absurd h (by simp)

theorem lookup_newIndices_iff (S : List Nat) (hS : S.Nodup) (r x : Nat) (hx : x ∈ S)
    (j : Nat) (hj : j ≤ (S.filter fun i => i ≠ r).length) :
    lookupIdx (newIndicesList S r) x = some j ↔ x = oldOf S r j := by
  constructor
  · intro h
    rcases lookup_newIndices_inv S r x j h with ⟨hjlt, hget⟩ | ⟨rfl, rfl⟩
    · rw [oldOf, List.getD_eq_getElem _ _ hjlt, ← hget]
      rfl
    · rw [oldOf, List.getD_eq_default _ _ (le_refl _)]
  · intro h
    by_cases hjlt : j < (S.filter fun i => i ≠ r).length
    · rw [oldOf, List.getD_eq_getElem _ _ hjlt] at h
      subst h
      exact lookup_newIndices_other S hS r j hjlt
    · have hjk : j = (S.filter fun i => i ≠ r).length := by omega
      rw [oldOf, hjk, List.getD_eq_default _ _ (le_refl _)] at h
      rw [h, hjk]
      exact lookup_newIndices_target S r

theorem lookup_newIndices_total (S : List Nat) (hS : S.Nodup) (x : Nat) (hx : x ∈ S)
    (r : Nat) :
    ∃ j, j ≤ (S.filter fun i => i ≠ r).length ∧
      lookupIdx (newIndicesList S r) x = some j := by
  by_cases hxr : x = r
  · exact ⟨_, le_refl _, hxr ▸ lookup_newIndices_target S r⟩
  · have hmem : x ∈ S.filter fun i => i ≠ r := List.mem_filter.mpr ⟨hx, by simpa using hxr⟩
    obtain ⟨⟨i, hi⟩, hget⟩ := List.mem_iff_get.mp hmem
    exact ⟨i, le_of_lt hi, hget ▸ lookup_newIndices_other S hS r i hi⟩

theorem oldOf_mem (S : List Nat) (r : Nat) (hr : r ∈ S) (j : Nat) :
    oldOf S r j ∈ S := by
  unfold oldOf
  by_cases hj : j < (S.filter fun i => i ≠ r).length
  · rw [List.getD_eq_getElem _ _ hj]
    have hmem := List.get_mem (S.filter fun i => i ≠ r) j hj
    rw [List.get_eq_getElem] at hmem
    exact (List.mem_filter.mp hmem).1
  · rw [List.getD_eq_default _ _ (by omega)]
    exact hr

theorem uncheckEntry_text (m : List (Nat × Nat)) (t : Nat) (s : Side) (e : Entry) :
    (uncheckEntry m t s e).text = e.text := by
  unfold uncheckEntry
  split
  · split <;> rfl
  · rfl

theorem uncheckEntry_position (m : List (Nat × Nat)) (t : Nat) (s : Side) (e : Entry) :
    (uncheckEntry m t s e).position = e.position := by
  unfold uncheckEntry
  split
  · split <;> rfl
  · rfl

theorem uncheckEntry_rowIndex_of_lookup (m : List (Nat × Nat)) (t : Nat) (s : Side)
    (e : Entry) (hs : e.side = s) {j : Nat} (hj : lookupIdx m e.rowIndex = some j) :
    (uncheckEntry m t s e).rowIndex = j := by
  unfold uncheckEntry
  rw [if_pos hs, hj]

theorem findSlot_applyUncheck (view : View) (s : Side) (r : Nat) (j : Nat)
    (hj : j ≤ ((sortedRowIndices view s).filter fun i => i ≠ r).length) (p : Pos) :
    findSlot (applyUncheck view r s) j s p =
      (findSlot view (oldOf (sortedRowIndices view s) r j) s p).map
        (uncheckEntry (newIndicesList (sortedRowIndices view s) r) r s) := by
  unfold findSlot applyUncheck
  rw [List.find?_map]
  congr 1
  apply find?_congr_mem
  intro e he
  simp only [Function.comp_apply]
  by_cases hside : e.side = s
  · rw [uncheckEntry_side, uncheckEntry_position]
    have hxS : e.rowIndex ∈ sortedRowIndices view s :=
      mem_sortedRowIndices.mpr ⟨e, he, hside, rfl⟩
    obtain ⟨j', hj', hlook⟩ :=
      lookup_newIndices_total _ (sortedRowIndices_nodup view s) _ hxS r
    rw [uncheckEntry_rowIndex_of_lookup _ r s e hside hlook]
    have hiff : j' = j ↔ e.rowIndex = oldOf (sortedRowIndices view s) r j := by
      constructor
      · rintro rfl
        exact ((lookup_newIndices_iff _ (sortedRowIndices_nodup view s) r _ hxS j' hj').mp
          hlook)
      · intro hx
        have := (lookup_newIndices_iff _ (sortedRowIndices_nodup view s) r _ hxS j hj).mpr hx
        rw [hlook] at this
        simpa using this
    rw [decide_eq_decide.mpr hiff]
  · rw [uncheckEntry_side, uncheckEntry_position]
    have hfalse : (decide (e.side = s)) = false := by simpa using hside
    rw [hfalse]
    simp

theorem textPairAt_applyUncheck (view : View) (s : Side) (r : Nat) (j : Nat)
    (hj : j ≤ ((sortedRowIndices view s).filter fun i => i ≠ r).length) :
    textPairAt (applyUncheck view r s) s j =
      textPairAt view s (oldOf (sortedRowIndices view s) r j) := by
  unfold textPairAt
  rw [findSlot_applyUncheck view s r j hj .P1, findSlot_applyUncheck view s r j hj .P2]
  cases findSlot view (oldOf (sortedRowIndices view s) r j) s .P1 <;>
    cases findSlot view (oldOf (sortedRowIndices view s) r j) s .P2 <;>
    simp [uncheckEntry_text]

theorem sortedRowIndices_applyUncheck (view : View) (s : Side) (r : Nat)
    (hr : r ∈ sortedRowIndices view s) :
    sortedRowIndices (applyUncheck view r s) s =
      List.range (((sortedRowIndices view s).filter fun i => i ≠ r).length + 1) := by
  have hnd := sortedRowIndices_nodup view s
  apply List.eq_of_perm_of_sorted
    (List.perm_of_nodup_nodup_toFinset_eq
      (sortedRowIndices_nodup (applyUncheck view r s) s) (List.nodup_range _) ?_)
    (sortedRowIndices_sorted (applyUncheck view r s) s)
    (List.pairwise_le_range _)
  ext x
  simp only [List.mem_toFinset, List.mem_range]
  constructor
  · intro hx
    obtain ⟨e', he', hside', hrow'⟩ := mem_sortedRowIndices.mp hx
    simp only [applyUncheck, List.mem_map] at he'
    obtain ⟨e, he, rfl⟩ := he'
    rw [uncheckEntry_side] at hside'
    have hxS : e.rowIndex ∈ sortedRowIndices view s :=
      mem_sortedRowIndices.mpr ⟨e, he, hside', rfl⟩
    obtain ⟨j, hj, hlook⟩ := lookup_newIndices_total _ hnd _ hxS r
    rw [uncheckEntry_rowIndex_of_lookup _ r s e hside' hlook] at hrow'
    omega
  · intro hx
    have hold : oldOf (sortedRowIndices view s) r x ∈ sortedRowIndices view s :=
      oldOf_mem _ r hr x
    obtain ⟨e, he, hside, hrow⟩ := mem_sortedRowIndices.mp hold
    apply mem_sortedRowIndices.mpr
    refine ⟨uncheckEntry (newIndicesList (sortedRowIndices view s) r) r s e,
      List.mem_map.mpr ⟨e, he, rfl⟩, ?_, ?_⟩
    · rw [uncheckEntry_side]
      exact hside
    · apply uncheckEntry_rowIndex_of_lookup _ r s e hside
      apply (lookup_newIndices_iff _ hnd r _ (by rw [hrow]; exact hold) x (by omega)).mpr
      exact hrow

/-- Claim C2: unchecking row r moves its (text_P1, text_P2) pair to the
last row position of the side; all other rows' pairs are compacted into
positions 0, 1, 2, … preserving their relative order (the new column is
the old column with r's pair deleted and re-appended at the end), and the
multiset of text pairs is preserved (the new column is a permutation of
the old one). -/
theorem uncheck_reorder_preserves_content (view : View) (s : Side) (r : Nat)
    (hr : r ∈ sortedRowIndices view s) :
    textPairs (applyUncheck view r s) s =
      (textPairs view s).eraseIdx ((sortedRowIndices view s).indexOf r) ++
        [(textPairs view s).getD ((sortedRowIndices view s).indexOf r) (none, none)] ∧
    (textPairs (applyUncheck view r s) s).Perm (textPairs view s) := by
  have hnd := sortedRowIndices_nodup view s
  have hpos : (sortedRowIndices view s).indexOf r < (sortedRowIndices view s).length :=
    List.indexOf_lt_length.mpr hr
  have hP : textPairs view s = (sortedRowIndices view s).map (textPairAt view s) := rfl
  have h4 : (textPairs view s).eraseIdx ((sortedRowIndices view s).indexOf r) =
      ((sortedRowIndices view s).filter fun i => i ≠ r).map (textPairAt view s) := by
    rw [hP, eraseIdx_map_comm, eraseIdx_indexOf_eq_filter _ hnd r]
  have hbound : (sortedRowIndices view s).indexOf r < (textPairs view s).length := by
    rw [hP, List.length_map]
    exact hpos
  have h5 : (textPairs view s).getD ((sortedRowIndices view s).indexOf r) (none, none) =
      textPairAt view s r := by
    rw [List.getD_eq_getElem _ _ hbound]
    have hget := List.indexOf_get hpos
    rw [List.get_eq_getElem] at hget
    simp only [hP, List.getElem_map]
    exact congrArg _ hget
  have hmain : textPairs (applyUncheck view r s) s =
      (textPairs view s).eraseIdx ((sortedRowIndices view s).indexOf r) ++
        [(textPairs view s).getD ((sortedRowIndices view s).indexOf r) (none, none)] := by
    calc textPairs (applyUncheck view r s) s
        = (List.range (((sortedRowIndices view s).filter fun i => i ≠ r).length + 1)).map
            (textPairAt (applyUncheck view r s) s) := by
          unfold textPairs
          rw [sortedRowIndices_applyUncheck view s r hr]
      _ = (List.range (((sortedRowIndices view s).filter fun i => i ≠ r).length + 1)).map
            (fun j => textPairAt view s (oldOf (sortedRowIndices view s) r j)) :=
          List.map_congr_left fun j hj =>
            textPairAt_applyUncheck view s r j (by
              have := List.mem_range.mp hj
              omega)
      _ = (((sortedRowIndices view s).filter fun i => i ≠ r).map (textPairAt view s)) ++
            [textPairAt view s r] := by
          rw [List.range_succ, List.map_append]
          congr 1
          · exact map_getD_range (textPairAt view s) r _
          · simp only [List.map_cons, List.map_nil]
            rw [show oldOf (sortedRowIndices view s) r
                (((sortedRowIndices view s).filter fun i => i ≠ r).length) = r from by
              rw [oldOf, List.getD_eq_default _ _ (le_refl _)]]
      _ = (textPairs view s).eraseIdx ((sortedRowIndices view s).indexOf r) ++
            [(textPairs view s).getD ((sortedRowIndices view s).indexOf r) (none, none)] := by
          rw [h4, h5]
  refine ⟨hmain, ?_⟩
  have hperm0 := perm_eraseIdx_append (textPairs view s)
    ((sortedRowIndices view s).indexOf r) hbound
  have hget : (textPairs view s).get ⟨(sortedRowIndices view s).indexOf r, hbound⟩ =
      (textPairs view s).getD ((sortedRowIndices view s).indexOf r) (none, none) := by
    rw [List.get_eq_getElem, List.getD_eq_getElem _ _ hbound]
  rw [hmain, ← hget]
  exact hperm0.symm

/-- A 3-row demonstration view for the reorder witness. -/
def reorderDemoView : View :=
  [⟨1, 0, .left, .P1, "a1", false, 0⟩, ⟨2, 0, .left, .P2, "a2", false, 0⟩,
   ⟨3, 1, .left, .P1, "b1", true, 0⟩, ⟨4, 1, .left, .P2, "b2", true, 0⟩,
   ⟨5, 2, .left, .P1, "c1", false, 0⟩, ⟨6, 2, .left, .P2, "c2", false, 0⟩]

theorem uncheck_reorder_preserves_content_witness :
    1 ∈ sortedRowIndices reorderDemoView .left ∧
      (textPairs (applyUncheck reorderDemoView 1 .left) .left =
        (textPairs reorderDemoView .left).eraseIdx
          ((sortedRowIndices reorderDemoView .left).indexOf 1) ++
          [(textPairs reorderDemoView .left).getD
            ((sortedRowIndices reorderDemoView .left).indexOf 1) (none, none)] ∧
      (textPairs (applyUncheck reorderDemoView 1 .left) .left).Perm
        (textPairs reorderDemoView .left)) :=
  ⟨by decide, uncheck_reorder_preserves_content reorderDemoView .left 1 (by decide)⟩

/-! ### Fetch reconciliation (claim C3)

`fetchEntries` in QueueBoard.tsx (polling version).  The React state it
touches is `entries`, `error` and `loading`.  JavaScript truthiness of
`data.error` is modelled by option presence: the API never returns an
empty-string error message, so a present field is truthy. -/

/-- The slice of component state that `fetchEntries` reads and writes. -/
structure ViewState where
  entries : List Entry
  error : Option String
  loading : Bool
deriving DecidableEq, Repr

/-- The parsed JSON body of a `/api/queue` response: either an array of
entries or an error object. -/
inductive FetchBody
  | arrayBody (entries : List Entry)
  | objectBody (error : Option String) (details : Option String)
deriving DecidableEq, Repr

/-- The outcome of one `fetch` call as observed by `fetchEntries`. -/
inductive FetchResult
  | networkError
  | aborted
  | response (status : Nat) (ok : Bool) (retryAfter : Option Nat) (body : FetchBody)
deriving DecidableEq, Repr

/-- The `data.error` field of the parsed body (undefined on arrays). -/
def bodyError : FetchBody → Option String
  | .arrayBody _ => none
  | .objectBody e _ => e

/-- The `data.details` field of the parsed body (undefined on arrays). -/
def bodyDetails : FetchBody → Option String
  | .arrayBody _ => none
  | .objectBody _ d => d

/-- The rate-limit error message built from the Retry-After header. -/
def rateLimitMessage (n : Nat) : String :=
  "Rate limit exceeded. Retry in " ++ toString n ++ "s"

/-- The message set on a thrown (non-abort) fetch error. -/
def connectErrorMessage : String :=
  "Cannot connect to server. Please check your internet connection."

/-- The message set on a non-array response body. -/
def invalidFormatMessage : String :=
  "Invalid data format received from server"

/-- The state transition performed by `fetchEntries` (QueueBoard.tsx
lines 388-435) for a given fetch outcome, with `isTyping` the value of
`isTypingRef.current`. -/
def fetchEntries (st : ViewState) (isTyping : Bool) (res : FetchResult) : ViewState :=
  match res with
  | .aborted => st
  | .networkError =>
      { entries := [], error := some connectErrorMessage, loading := false }
  | .response status ok retryAfter body =>
      if status = 429 then
        match retryAfter with
        | some n => { st with error := some (rateLimitMessage n) }
        | none => st
      else if ok = false ∨ bodyError body ≠ none then
        { entries := [],
          error := some ((bodyDetails body).getD ((bodyError body).getD "Failed to fetch data")),
          loading := false }
      else
        match body with
        | .arrayBody data =>
            { entries := if isTyping then st.entries else data,
              error := none, loading := false }
        | .objectBody _ _ =>
            { entries := [], error := some invalidFormatMessage, loading := false }

/-- A nonempty view used to exhibit the fetch-failure behavior. -/
def fetchDemoState : ViewState :=
  { entries := [⟨1, 0, .left, .P1, "keep me", false, 0⟩], error := none, loading := false }

/-- Claim C3 counterexample: a network error during a poll does NOT
leave the view as it was — it replaces a nonempty view with the empty
list (and the same happens for malformed non-array responses). -/
theorem fetch_failure_clears_view_counterexample :
    (fetchEntries fetchDemoState false .networkError).entries = [] ∧
      fetchDemoState.entries ≠ [] := by
  constructor
  · rfl
  · decide

/-- Claim C3 amended: only rate-limit (429) responses and aborted
requests leave the view untouched (429 surfacing a retryable countdown
error when Retry-After is present); network errors, HTTP/API error
responses, and malformed non-array responses all clear the view to the
empty list while surfacing an error message. -/
theorem fetch_failure_behavior (st : ViewState) (t ok : Bool) (ra : Option Nat)
    (body : FetchBody) (n : Nat) (e d : Option String) :
    (fetchEntries st t .aborted = st) ∧
    ((fetchEntries st t (.response 429 ok ra body)).entries = st.entries) ∧
    ((fetchEntries st t (.response 429 ok none body)) = st) ∧
    ((fetchEntries st t (.response 429 ok (some n) body)).error =
      some (rateLimitMessage n)) ∧
    ((fetchEntries st t .networkError).entries = [] ∧
      (fetchEntries st t .networkError).error = some connectErrorMessage) ∧
    ((fetchEntries st t (.response 500 false ra (.objectBody e d))).entries = []) ∧
    ((fetchEntries st t (.response 200 true ra (.objectBody none none))).entries = [] ∧
      (fetchEntries st t (.response 200 true ra (.objectBody none none))).error =
        some invalidFormatMessage) := by
  refine ⟨rfl, ?_, ?_, ?_, ⟨rfl, rfl⟩, ?_, ⟨?_, ?_⟩⟩
  · cases ra <;> simp [fetchEntries]
  · simp [fetchEntries]
  · simp [fetchEntries]
  · cases e <;> simp [fetchEntries, bodyError, bodyDetails]
  · simp [fetchEntries, bodyError]
  · simp [fetchEntries, bodyError]

/-! ### Broadcast handlers and locks (claims C5 and C8)

The Pusher variant of the component keeps three mutable tables next to
the view: `pendingOpsRef` (entry ids with an in-flight API call),
`lockedEntriesRef` (entry id to lock timestamp) and `lockedSidesRef`
(side to lock timestamp).  Note that in JavaScript `now - t < 3000` is
also true when `t > now` (negative difference), which agrees with
truncated Nat subtraction. -/

/-- Association-list lookup with side keys (the `lockedSidesRef.get` call). -/
def lookupSideLock : List (Side × Nat) → Side → Option Nat
  | [], _ => none
  | (k, v) :: rest, x => if x = k then some v else lookupSideLock rest x

/-- The client state owned by the Pusher variant of the component. -/
structure ClientState where
  entries : List Entry
  pendingOps : List Nat
  lockedEntries : List (Nat × Nat)
  lockedSides : List (Side × Nat)
deriving DecidableEq, Repr

/-- The per-entry lock test of the `entry-updated` handler:
`entryLockTime && now - entryLockTime < 3000`. -/
def entryLockHeld (st : ClientState) (id now : Nat) : Bool :=
  match lookupIdx st.lockedEntries id with
  | some t => now - t < 3000
  | none => false

/-- The per-side lock test of the `entry-updated` handler:
`sideLockTime && now - sideLockTime < 3000`. -/
def sideLockHeld (st : ClientState) (s : Side) (now : Nat) : Bool :=
  match lookupSideLock st.lockedSides s with
  | some t => now - t < 3000
  | none => false

/-- The `setEntries` update inside the `entry-updated` handler: skip if
the view already holds the same text and checked value for the id,
otherwise substitute the broadcast entry. -/
def applyEntryUpdated (view : View) (entry : Entry) : View :=
  match view.find? fun e => decide (e.id = entry.id) with
  | some cur =>
      if cur.text = entry.text ∧ cur.checked = entry.checked then view
      else view.map fun e => if e.id = entry.id then entry else e
  | none => view.map fun e => if e.id = entry.id then entry else e

/-- The `entry-updated` broadcast handler (Pusher variant, lines
188-224): discard when the entry has a pending operation, a held entry
lock, or a held side lock; otherwise apply. -/
def handleEntryUpdated (st : ClientState) (entry : Entry) (now : Nat) : ClientState :=
  if entry.id ∈ st.pendingOps then st
  else if entryLockHeld st entry.id now then st
  else if sideLockHeld st entry.side now then st
  else { st with entries := applyEntryUpdated st.entries entry }

/-- The `sync-all` broadcast handler (lines 227-236): replace the whole
view only when no pending operation and no entry lock exists at all. -/
def handleSyncAll (st : ClientState) (snapshot : List Entry) : ClientState :=
  if st.pendingOps.length = 0 ∧ st.lockedEntries.length = 0 then
    { st with entries := snapshot }
  else st

/-- Claim C5: while a local-edit lock for an id is held, a broadcast
notification for that id is discarded outright (the whole state,
including the view's text and checked for the id, is unchanged; nothing
is queued); once the lock has expired — with no pending operation and no
side lock in the way — the next notification is applied: afterwards the
view's slot for that id carries the notification's text and checked. -/
theorem lock_shadowing (st : ClientState) (entry : Entry) (now : Nat) :
    (entryLockHeld st entry.id now = true → handleEntryUpdated st entry now = st) ∧
    (entryLockHeld st entry.id now = false →
      entry.id ∉ st.pendingOps →
      sideLockHeld st entry.side now = false →
      ∀ cur, st.entries.find? (fun e => decide (e.id = entry.id)) = some cur →
        ∃ cur₂,
          (handleEntryUpdated st entry now).entries.find?
              (fun e => decide (e.id = entry.id)) = some cur₂ ∧
            cur₂.text = entry.text ∧ cur₂.checked = entry.checked) := by
  constructor
  · intro hlock
    unfold handleEntryUpdated
    by_cases hp : entry.id ∈ st.pendingOps
    · rw [if_pos hp]
    · rw [if_neg hp, if_pos hlock]
  · intro hlock hp hside cur hcur
    unfold handleEntryUpdated
    rw [if_neg hp, if_neg (by simp [hlock]), if_neg (by simp [hside])]
    unfold applyEntryUpdated
    rw [hcur]
    dsimp only
    by_cases heq : cur.text = entry.text ∧ cur.checked = entry.checked
    · rw [if_pos heq]
      exact ⟨cur, hcur, heq⟩
    · rw [if_neg heq]
      refine ⟨entry, ?_, rfl, rfl⟩
      have hcurid : cur.id = entry.id := by
        have := List.find?_some hcur
        simpa using this
      rw [List.find?_map]
      have hpt : ∀ e ∈ st.entries,
          (((fun e => decide (e.id = entry.id)) ∘ fun e =>
              if e.id = entry.id then entry else e) e) = decide (e.id = entry.id) := by
        intro e he
        by_cases h : e.id = entry.id <;> simp [h]
      rw [find?_congr_mem st.entries hpt, hcur]
      simp [hcurid]

/-- A client state for the lock-shadowing witness: slot 1 holds stale
text, the entry lock on id 1 was taken at time 1000. -/
def lockDemoState : ClientState :=
  { entries := [⟨1, 0, .left, .P1, "stale", false, 0⟩],
    pendingOps := [], lockedEntries := [(1, 1000)], lockedSides := [] }

/-- The broadcast notification used in the lock-shadowing witness. -/
def lockDemoEntry : Entry := ⟨1, 0, .left, .P1, "fresh", true, 2000⟩

theorem lock_shadowing_witness :
    (handleEntryUpdated lockDemoState lockDemoEntry 2000 = lockDemoState) ∧
      ∃ cur₂,
        (handleEntryUpdated lockDemoState lockDemoEntry 9000).entries.find?
            (fun e => decide (e.id = lockDemoEntry.id)) = some cur₂ ∧
          cur₂.text = lockDemoEntry.text ∧ cur₂.checked = lockDemoEntry.checked :=
  ⟨(lock_shadowing lockDemoState lockDemoEntry 2000).1 (by decide),
    (lock_shadowing lockDemoState lockDemoEntry 9000).2 (by decide) (by decide)
      (by decide) ⟨1, 0, .left, .P1, "stale", false, 0⟩ (by decide)⟩

/-- Claim C8: re-delivering a poll snapshot or broadcast notification the
view already reflects (value equality on text and checked) is a no-op:
the `entry-updated` handler returns the state unchanged, and `sync-all`
with the view's own snapshot returns the state unchanged as well. -/
theorem idempotent_apply (st : ClientState) (entry : Entry) (now : Nat) (cur : Entry)
    (hfind : st.entries.find? (fun e => decide (e.id = entry.id)) = some cur)
    (htext : cur.text = entry.text) (hchecked : cur.checked = entry.checked) :
    applyEntryUpdated st.entries entry = st.entries ∧
      handleEntryUpdated st entry now = st ∧
      handleSyncAll st st.entries = st := by
  have happly : applyEntryUpdated st.entries entry = st.entries := by
    unfold applyEntryUpdated
    rw [hfind]
    dsimp only
    rw [if_pos ⟨htext, hchecked⟩]
  refine ⟨happly, ?_, ?_⟩
  · unfold handleEntryUpdated
    split_ifs <;> simp [happly]
  · unfold handleSyncAll
    split_ifs <;> rfl

theorem idempotent_apply_witness :
    applyEntryUpdated lockDemoState.entries ⟨1, 0, .left, .P1, "stale", false, 500⟩ =
        lockDemoState.entries ∧
      handleEntryUpdated lockDemoState ⟨1, 0, .left, .P1, "stale", false, 500⟩ 2000 =
        lockDemoState ∧
      handleSyncAll lockDemoState lockDemoState.entries = lockDemoState :=
  idempotent_apply lockDemoState ⟨1, 0, .left, .P1, "stale", false, 500⟩ 2000
    ⟨1, 0, .left, .P1, "stale", false, 0⟩ (by decide) rfl rfl

/-! ### Store and API routes (claims C4, C6, C9)

The Prisma-backed store: a `QueueEntry` table (modelled by `Entry` rows
with store-assigned ids) and an append-only `HistoryLog` table.  The
route handlers in `src/app/api/queue/[id]/route.ts` and
`src/app/api/queue/route.ts` are embedded as pure functions on this
store. -/

/-- One `HistoryLog` row. -/
structure LogEntry where
  rowIndex : Nat
  side : Side
  position : Pos
  action : String
  oldValue : Option String
  newValue : Option String
  timestamp : Nat
deriving DecidableEq, Repr

/-- The relational store: slot rows, log rows, and the id sequence. -/
structure Store where
  slots : List Entry
  logs : List LogEntry
  nextId : Nat
deriving DecidableEq, Repr

/-- The JSON body of a PATCH request, one optional field per property. -/
structure PatchBody where
  text : Option String
  checked : Option Bool
  rowIndex : Option Nat
deriving DecidableEq, Repr

/-- A route handler result: the updated slot or a 404. -/
inductive ApiResponse
  | ok (slot : Entry)
  | notFound
deriving DecidableEq, Repr

/-- The history rows created by the PATCH handler: a checked/unchecked
row when `checked` is present and differs, then a text_changed row when
`text` is present and differs.  JavaScript `String(boolean)` renders as
"true"/"false", matching `toString` on `Bool`. -/
def patchLogs (cur : Entry) (body : PatchBody) (now : Nat) : List LogEntry :=
  (match body.checked with
   | some c =>
       if c ≠ cur.checked then
         [⟨cur.rowIndex, cur.side, cur.position,
           if c then "checked" else "unchecked",
           some (toString cur.checked), some (toString c), now⟩]
       else []
   | none => []) ++
  (match body.text with
   | some t =>
       if t ≠ cur.text then
         [⟨cur.rowIndex, cur.side, cur.position, "text_changed",
           some cur.text, some t, now⟩]
       else []
   | none => [])

/-- The PATCH handler of `/api/queue/[id]`: the body is destructured as
`const { text, checked } = body` — the handler reads no other body
field — and the update data spreads only `text` and `checked` plus a
fresh `updatedAt`. -/
def PATCH (store : Store) (id : Nat) (body : PatchBody) (now : Nat) :
    Store × ApiResponse :=
  match store.slots.find? fun e => decide (e.id = id) with
  | none => (store, .notFound)
  | some cur =>
      let updated : Entry :=
        { cur with
          text := match body.text with | some t => t | none => cur.text,
          checked := match body.checked with | some c => c | none => cur.checked,
          updatedAt := now }
      ({ store with
          slots := store.slots.map fun e => if e.id = id then updated else e,
          logs := store.logs ++ patchLogs cur body now },
        .ok updated)

/-- The DELETE handler of `/api/queue/[id]`: reset the text to empty,
stamp `updatedAt`, and unconditionally append a text_changed history
row recording the old text and the new empty text. -/
def DELETE (store : Store) (id : Nat) (now : Nat) : Store × ApiResponse :=
  match store.slots.find? fun e => decide (e.id = id) with
  | none => (store, .notFound)
  | some entry =>
      let updated : Entry := { entry with text := "", updatedAt := now }
      ({ store with
          slots := store.slots.map fun e => if e.id = id then updated else e,
          logs := store.logs ++
            [⟨entry.rowIndex, entry.side, entry.position, "text_changed",
              some entry.text, some "", now⟩] },
        .ok updated)

/-- A one-slot store used as the PATCH rowIndex failing input. -/
def patchDemoStore : Store :=
  { slots := [⟨1, 0, .left, .P1, "p", false, 0⟩], logs := [], nextId := 2 }

/-- Claim C4 failing input (code bug): `PATCH id=1 {rowIndex: 5}` leaves
the stored rowIndex at 0 — the handler silently drops the field — while
text and checked passed alongside are applied.  The client's own
uncheck-reorder path issues exactly such `{rowIndex}` PATCH calls. -/
theorem patch_drops_rowIndex :
    ((PATCH patchDemoStore 1 ⟨none, none, some 5⟩ 10).1.slots.map (·.rowIndex)) = [0] ∧
      ((PATCH patchDemoStore 1 ⟨some "q", some true, some 5⟩ 10).1.slots =
        [⟨1, 0, .left, .P1, "q", true, 10⟩]) := by
  constructor <;> rfl

/-- Claim C9: for a slot present in the store, DELETE always appends
exactly one text_changed history row carrying the old text and the new
empty text — in particular, when the text was already empty the row
records oldValue = newValue = "" — whereas PATCH with a text field
appends a text_changed row only when the value actually changes. -/
theorem delete_always_logs (store : Store) (id : Nat) (now : Nat) (cur : Entry)
    (hfind : store.slots.find? (fun e => decide (e.id = id)) = some cur) :
    ((DELETE store id now).1.logs = store.logs ++
      [⟨cur.rowIndex, cur.side, cur.position, "text_changed",
        some cur.text, some "", now⟩]) ∧
    (cur.text = "" → (DELETE store id now).1.logs = store.logs ++
      [⟨cur.rowIndex, cur.side, cur.position, "text_changed",
        some "", some "", now⟩]) ∧
    ((PATCH store id ⟨some cur.text, none, none⟩ now).1.logs = store.logs) ∧
    (∀ t, t ≠ cur.text →
      (PATCH store id ⟨some t, none, none⟩ now).1.logs = store.logs ++
        [⟨cur.rowIndex, cur.side, cur.position, "text_changed",
          some cur.text, some t, now⟩]) := by
  refine ⟨?_, ?_, ?_, ?_⟩
  · unfold DELETE
    rw [hfind]
  · intro hempty
    unfold DELETE
    rw [hfind]
    dsimp only
    rw [hempty]
  · unfold PATCH
    rw [hfind]
    dsimp only
    simp [patchLogs]
  · intro t ht
    unfold PATCH
    rw [hfind]
    dsimp only
    simp [patchLogs, ht]

theorem delete_always_logs_witness :
    ((DELETE patchDemoStore 1 7).1.logs = patchDemoStore.logs ++
      [⟨0, .left, .P1, "text_changed", some "p", some "", 7⟩]) ∧
    ((PATCH patchDemoStore 1 ⟨some "p", none, none⟩ 7).1.logs = patchDemoStore.logs) ∧
    ((PATCH patchDemoStore 1 ⟨some "q", none, none⟩ 7).1.logs = patchDemoStore.logs ++
      [⟨0, .left, .P1, "text_changed", some "p", some "q", 7⟩]) :=
  ⟨(delete_always_logs patchDemoStore 1 7 ⟨1, 0, .left, .P1, "p", false, 0⟩
      (by decide)).1,
    (delete_always_logs patchDemoStore 1 7 ⟨1, 0, .left, .P1, "p", false, 0⟩
      (by decide)).2.2.1,
    (delete_always_logs patchDemoStore 1 7 ⟨1, 0, .left, .P1, "p", false, 0⟩
      (by decide)).2.2.2 "q" (by decide)⟩

/-! ### Grid initialization (claim C6)

The POST `{action: "initialize"}` handler of `/api/queue` builds the 48
canonical (rowIndex, side, position) triples in row-major order and
upserts each by the unique identity triple (`update: {}` — an existing
row is left untouched).  The `Promise.all` of upserts touches pairwise
distinct triples, so the serialized database execution is modelled by a
left fold. -/

/-- The identity triple of a slot. -/
def tripleOf (e : Entry) : Nat × Side × Pos :=
  (e.rowIndex, e.side, e.position)

/-- The where-clause of the upsert: match on the identity triple. -/
def triplePred (t : Nat × Side × Pos) (e : Entry) : Bool :=
  decide (e.rowIndex = t.1) && decide (e.side = t.2.1) && decide (e.position = t.2.2)

/-- How many slots carry a given identity triple. -/
def countTriple (slots : List Entry) (t : Nat × Side × Pos) : Nat :=
  (slots.filter (triplePred t)).length

/-- The 48 canonical triples in the handler's loop order. -/
def canonicalTriples : List (Nat × Side × Pos) :=
  (List.range 12).flatMap fun row =>
    [Side.left, Side.right].flatMap fun s =>
      [Pos.P1, Pos.P2].map fun p => (row, s, p)

/-- One `prisma.queueEntry.upsert` keyed by the identity triple:
`update: {}` leaves an existing row unchanged, `create` inserts the
default row. -/
def upsertSlot (store : Store) (t : Nat × Side × Pos) (now : Nat) : Store :=
  if store.slots.any (triplePred t) then store
  else
    { store with
      slots := store.slots ++ [⟨store.nextId, t.1, t.2.1, t.2.2, "", false, now⟩],
      nextId := store.nextId + 1 }

/-- The initialize action of the POST handler. -/
def initializeGrid (store : Store) (now : Nat) : Store :=
  canonicalTriples.foldl (fun st t => upsertSlot st t now) store

/-- A store with no slots yet. -/
def emptyStore : Store := ⟨[], [], 1⟩

/-- Sort key for `side asc` (string order: "left" before "right"). -/
def sideKey : Side → Nat
  | .left => 0
  | .right => 1

/-- Sort key for `position asc` ("P1" before "P2"). -/
def posKey : Pos → Nat
  | .P1 => 0
  | .P2 => 1

/-- The `orderBy [rowIndex asc, side asc, position asc]` relation of the
GET handler. -/
def slotLE (a b : Entry) : Prop :=
  a.rowIndex < b.rowIndex ∨
    (a.rowIndex = b.rowIndex ∧
      (sideKey a.side < sideKey b.side ∨
        (sideKey a.side = sideKey b.side ∧ posKey a.position ≤ posKey b.position)))

instance : DecidableRel slotLE := fun a b => by
  unfold slotLE
  infer_instance

/-- The GET handler's `findMany` with its `orderBy` clause. -/
def listSlots (store : Store) : List Entry :=
  store.slots.insertionSort slotLE

theorem triplePred_eq_tripleOf (t : Nat × Side × Pos) (e : Entry) :
    triplePred t e = decide (tripleOf e = t) := by
  obtain ⟨r, s, p⟩ := t
  by_cases h1 : e.rowIndex = r <;> by_cases h2 : e.side = s <;>
    by_cases h3 : e.position = p <;>
    simp [triplePred, tripleOf, h1, h2, h3, Prod.ext_iff]

theorem countTriple_eq_count_map (slots : List Entry) (t : Nat × Side × Pos) :
    countTriple slots t = (slots.map tripleOf).count t := by
  rw [countTriple, List.count_eq_countP, List.countP_map, ← List.countP_eq_length_filter]
  apply List.countP_congr
  intro e he
  rw [Function.comp_apply, triplePred_eq_tripleOf]
  by_cases h : tripleOf e = t <;> simp [h]

theorem any_triple_iff (slots : List Entry) (t : Nat × Side × Pos) :
    slots.any (triplePred t) = true ↔ 0 < countTriple slots t := by
  rw [countTriple, ← List.countP_eq_length_filter, List.countP_pos_iff, List.any_eq_true]

theorem upsert_count_self (store : Store) (t : Nat × Side × Pos) (now : Nat) :
    countTriple (upsertSlot store t now).slots t =
      if countTriple store.slots t = 0 then 1 else countTriple store.slots t := by
  unfold upsertSlot
  by_cases h : store.slots.any (triplePred t) = true
  · rw [if_pos h]
    have hpos := (any_triple_iff store.slots t).mp h
    rw [if_neg (by omega)]
  · rw [if_neg h]
    have hzero : countTriple store.slots t = 0 := by
      by_contra hc
      exact h ((any_triple_iff store.slots t).mpr (by omega))
    have hnew : triplePred t (⟨store.nextId, t.1, t.2.1, t.2.2, "", false, now⟩ : Entry) =
        true := by
      simp [triplePred]
    show countTriple (store.slots ++ [_]) t = _
    rw [countTriple, List.filter_append, List.length_append, ← countTriple, hzero,
      if_pos rfl]
    simp [hnew]

theorem upsert_count_other (store : Store) (t t' : Nat × Side × Pos) (now : Nat)
    (h : t' ≠ t) :
    countTriple (upsertSlot store t now).slots t' = countTriple store.slots t' := by
  unfold upsertSlot
  split
  · rfl
  · show countTriple (store.slots ++ [_]) t' = _
    rw [countTriple, List.filter_append, List.length_append, ← countTriple]
    have hnew : triplePred t' (⟨store.nextId, t.1, t.2.1, t.2.2, "", false, now⟩ : Entry) =
        false := by
      rw [triplePred_eq_tripleOf]
      simp only [tripleOf]
      exact decide_eq_false fun hc => h (by rw [← hc])
    simp [hnew]

theorem upsert_slots_sub (store : Store) (t : Nat × Side × Pos) (now : Nat) :
    ∀ e ∈ (upsertSlot store t now).slots, e ∈ store.slots ∨ tripleOf e = t := by
  unfold upsertSlot
  split
  · exact fun e he => Or.inl he
  · intro e he
    rcases List.mem_append.mp he with hm | hm
    · exact Or.inl hm
    · right
      rw [List.mem_singleton.mp hm]
      rfl

theorem upsert_count_mono (store : Store) (t t' : Nat × Side × Pos) (now : Nat) :
    countTriple store.slots t' ≤ countTriple (upsertSlot store t now).slots t' := by
  unfold upsertSlot
  split
  · exact le_refl _
  · simp only [countTriple, List.filter_append, List.length_append]
    omega

theorem upsert_count_self_pos (store : Store) (t : Nat × Side × Pos) (now : Nat) :
    0 < countTriple (upsertSlot store t now).slots t := by
  rw [upsert_count_self]
  split_ifs with h
  · omega
  · omega

theorem foldl_upsert_count_mono :
    ∀ (ts : List (Nat × Side × Pos)) (now : Nat) (store : Store) (t' : Nat × Side × Pos),
      countTriple store.slots t' ≤
        countTriple ((ts.foldl (fun st t => upsertSlot st t now) store)).slots t' := by
  intro ts
  induction ts with
  | nil => intro now store t'; exact le_refl _
  | cons t ts ih =>
    intro now store t'
    rw [List.foldl_cons]
    exact le_trans (upsert_count_mono store t t' now) (ih now (upsertSlot store t now) t')

theorem foldl_upsert_all_present :
    ∀ (ts : List (Nat × Side × Pos)) (now : Nat) (store : Store),
      ∀ t ∈ ts, 0 < countTriple ((ts.foldl (fun st t => upsertSlot st t now) store)).slots t := by
  intro ts
  induction ts with
  | nil => intro now store t ht; exact absurd ht (by simp)
  | cons u ts ih =>
    intro now store t ht
    rw [List.foldl_cons]
    rcases List.mem_cons.mp ht with rfl | hmem
    · exact lt_of_lt_of_le (upsert_count_self_pos store t now)
        (foldl_upsert_count_mono ts now (upsertSlot store t now) t)
    · exact ih now (upsertSlot store u now) t hmem

theorem foldl_upsert_already :
    ∀ (ts : List (Nat × Side × Pos)) (now : Nat) (store : Store),
      (∀ t ∈ ts, 0 < countTriple store.slots t) →
      ts.foldl (fun st t => upsertSlot st t now) store = store := by
  intro ts
  induction ts with
  | nil => intro now store _; rfl
  | cons t ts ih =>
    intro now store h
    have hstep : upsertSlot store t now = store := by
      unfold upsertSlot
      rw [if_pos ((any_triple_iff store.slots t).mpr (h t (List.mem_cons_self t ts)))]
    rw [List.foldl_cons, hstep]
    exact ih now store fun u hu => h u (List.mem_cons_of_mem t hu)

theorem foldl_upsert_counts :
    ∀ ts : List (Nat × Side × Pos), ts.Nodup →
      ∀ (now : Nat) (store : Store), (∀ t, countTriple store.slots t ≤ 1) →
        (∀ t ∈ ts,
          countTriple ((ts.foldl (fun st t => upsertSlot st t now) store)).slots t = 1) ∧
        (∀ t, t ∉ ts →
          countTriple ((ts.foldl (fun st t => upsertSlot st t now) store)).slots t =
            countTriple store.slots t) ∧
        (∀ e ∈ ((ts.foldl (fun st t => upsertSlot st t now) store)).slots,
          e ∈ store.slots ∨ tripleOf e ∈ ts) := by
  intro ts
  induction ts with
  | nil =>
    intro _ now store _
    exact ⟨fun t ht => absurd ht (by simp), fun t _ => rfl, fun e he => Or.inl he⟩
  | cons t ts ih =>
    intro hnd now store hle
    rw [List.nodup_cons] at hnd
    have hle₂ : ∀ t', countTriple (upsertSlot store t now).slots t' ≤ 1 := by
      intro t'
      by_cases htt : t' = t
      · subst htt
        rw [upsert_count_self]
        split_ifs
        · exact le_refl 1
        · exact hle t'
      · rw [upsert_count_other store t t' now htt]
        exact hle t'
    obtain ⟨ih1, ih2, ih3⟩ := ih hnd.2 now (upsertSlot store t now) hle₂
    refine ⟨?_, ?_, ?_⟩
    · intro t' ht'
      rw [List.foldl_cons]
      rcases List.mem_cons.mp ht' with rfl | hmem
      · rw [ih2 t' hnd.1, upsert_count_self]
        have := hle t'
        split_ifs with h0
        · rfl
        · omega
      · exact ih1 t' hmem
    · intro t' ht'
      have h1 : t' ≠ t := fun h => ht' (h ▸ List.mem_cons_self t ts)
      have h2 : t' ∉ ts := fun h => ht' (List.mem_cons_of_mem t h)
      rw [List.foldl_cons, ih2 t' h2, upsert_count_other store t t' now h1]
    · intro e he
      rw [List.foldl_cons] at he
      rcases ih3 e he with hmem | hts
      · rcases upsert_slots_sub store t now e hmem with h | h
        · exact Or.inl h
        · exact Or.inr (h ▸ List.mem_cons_self t ts)
      · exact Or.inr (List.mem_cons_of_mem t hts)

/-- A store holding one slot outside the canonical grid (rowIndex 12). -/
def junkStore : Store :=
  { slots := [⟨7, 12, .left, .P1, "junk", false, 0⟩], logs := [], nextId := 8 }

set_option maxRecDepth 10000 in
/-- Claim C6 counterexample: started from a store holding a slot outside
the canonical grid, initializeGrid leaves 49 slots — not exactly the 48
canonical ones — because the upsert never removes anything. -/
theorem initializeGrid_not_exactly_48_counterexample :
    (initializeGrid junkStore 0).slots.length = 49 ∧ junkStore.slots.length = 1 := by
  constructor <;> rfl

theorem countTriple_cons (e : Entry) (slots : List Entry) (t : Nat × Side × Pos) :
    countTriple (e :: slots) t =
      (if triplePred t e then 1 else 0) + countTriple slots t := by
  unfold countTriple
  rw [List.filter_cons]
  split_ifs
  · rw [List.length_cons]
    omega
  · simp

theorem nodup_map_tripleOf :
    ∀ slots : List Entry, (∀ t, countTriple slots t ≤ 1) → (slots.map tripleOf).Nodup := by
  intro slots
  induction slots with
  | nil => intro _; simp
  | cons e slots ih =>
    intro h
    rw [List.map_cons, List.nodup_cons]
    constructor
    · intro hmem
      obtain ⟨e₂, he₂, heq⟩ := List.mem_map.mp hmem
      have hcnt₂ : 0 < countTriple slots (tripleOf e) := by
        rw [countTriple, ← List.countP_eq_length_filter, List.countP_pos_iff]
        exact ⟨e₂, he₂, by rw [triplePred_eq_tripleOf]; exact decide_eq_true heq⟩
      have hself : triplePred (tripleOf e) e = true := by
        rw [triplePred_eq_tripleOf]
        exact decide_eq_true rfl
      have := h (tripleOf e)
      rw [countTriple_cons, hself] at this
      simp at this
      omega
    · apply ih
      intro t
      have := h t
      rw [countTriple_cons] at this
      split_ifs at this <;> omega

set_option maxRecDepth 10000 in
/-- Claim C6 amended: on any store whose slots all carry canonical
identity triples, each triple at most once (the only states this system
ever creates — the database enforces the unique triple index),
initializeGrid leaves each canonical triple present exactly once and
exactly 48 slots total; a repeat call returns the store unchanged; and
on a fresh store, listSlots afterwards returns exactly 48 entries, all
with empty text and unchecked.  Starting from a store with non-canonical
slots those slots persist alongside the 48. -/
theorem initializeGrid_idempotent (store : Store) (now now₂ : Nat)
    (hcanon : ∀ e ∈ store.slots, tripleOf e ∈ canonicalTriples)
    (hcnt : ∀ t, countTriple store.slots t ≤ 1) :
    (∀ t ∈ canonicalTriples, countTriple (initializeGrid store now).slots t = 1) ∧
    ((initializeGrid store now).slots.length = 48) ∧
    (initializeGrid (initializeGrid store now) now₂ = initializeGrid store now) ∧
    ((listSlots (initializeGrid emptyStore 0)).length = 48 ∧
      ∀ e ∈ listSlots (initializeGrid emptyStore 0), e.text = "" ∧ e.checked = false) := by
  have hnodupC : canonicalTriples.Nodup := by decide
  obtain ⟨h1, h2, h3⟩ := foldl_upsert_counts canonicalTriples hnodupC now store hcnt
  unfold initializeGrid
  refine ⟨h1, ?_, ?_, ?_, ?_⟩
  · have hle : ∀ t, countTriple
        (canonicalTriples.foldl (fun st t => upsertSlot st t now) store).slots t ≤ 1 := by
      intro u
      by_cases hu : u ∈ canonicalTriples
      · rw [h1 u hu]
      · rw [h2 u hu]
        exact hcnt u
    have hperm :
        ((canonicalTriples.foldl (fun st t => upsertSlot st t now) store).slots.map
          tripleOf).Perm canonicalTriples := by
      apply List.perm_of_nodup_nodup_toFinset_eq (nodup_map_tripleOf _ hle) hnodupC
      ext u
      simp only [List.mem_toFinset, List.mem_map]
      constructor
      · rintro ⟨e, he, rfl⟩
        rcases h3 e he with hm | hm
        · exact hcanon e hm
        · exact hm
      · intro hu
        have hpos : 0 < countTriple
            (canonicalTriples.foldl (fun st t => upsertSlot st t now) store).slots u := by
          rw [h1 u hu]
          omega
        rw [countTriple, ← List.countP_eq_length_filter, List.countP_pos_iff] at hpos
        obtain ⟨e, he, hp⟩ := hpos
        rw [triplePred_eq_tripleOf] at hp
        exact ⟨e, he, of_decide_eq_true hp⟩
    have hlen := hperm.length_eq
    rw [List.length_map] at hlen
    rw [hlen]
    rfl
  · exact foldl_upsert_already canonicalTriples now₂ _ fun t ht => by rw [h1 t ht]; omega
  · have hp := List.perm_insertionSort slotLE
      (canonicalTriples.foldl (fun st t => upsertSlot st t 0) emptyStore).slots
    rw [listSlots, hp.length_eq]
    rfl
  · decide

theorem initializeGrid_idempotent_witness :
    (countTriple (initializeGrid emptyStore 5).slots (0, Side.left, Pos.P1) = 1) ∧
    ((initializeGrid emptyStore 5).slots.length = 48) ∧
    (initializeGrid (initializeGrid emptyStore 5) 9 = initializeGrid emptyStore 5) ∧
    ((listSlots (initializeGrid emptyStore 0)).length = 48) :=
  ⟨(initializeGrid_idempotent emptyStore 5 9 (fun e he => absurd he (List.not_mem_nil e))
      (fun t => by simp [countTriple, emptyStore])).1 (0, Side.left, Pos.P1) (by decide),
    (initializeGrid_idempotent emptyStore 5 9 (fun e he => absurd he (List.not_mem_nil e))
      (fun t => by simp [countTriple, emptyStore])).2.1,
    (initializeGrid_idempotent emptyStore 5 9 (fun e he => absurd he (List.not_mem_nil e))
      (fun t => by simp [countTriple, emptyStore])).2.2.1,
    (initializeGrid_idempotent emptyStore 5 9 (fun e he => absurd he (List.not_mem_nil e))
      (fun t => by simp [countTriple, emptyStore])).2.2.2.1⟩

/-! ### Scenario B call counting (claim C7)

The store calls dispatched by the `checked = true` branch.  In
QueueBoard.tsx the branch maps over the side's entries and calls
`updateEntry(id, {checked: …})` for the target row and for every other
checked entry, resolving immediately otherwise; the Pusher variant first
deduplicates by identity triple (keeping the highest id) and then sends
one PATCH per slot of the side. -/

/-- The `(id, checked)` payloads of the updateEntry calls issued by the
checked branch in QueueBoard.tsx (lines 599-608). -/
def checkCalls (view : View) (target : Nat) (side : Side) : List (Nat × Bool) :=
  (view.filter fun e => decide (e.side = side)).filterMap fun e =>
    if e.rowIndex = target then some (e.id, true)
    else if e.checked then some (e.id, false)
    else none

/-- One step of the seenKeys map build: replace the entry for an already
seen triple when the new id is larger, append unseen triples. -/
def dedupeStep (acc : List Entry) (e : Entry) : List Entry :=
  if acc.any fun x => decide (tripleOf x = tripleOf e) then
    acc.map fun x => if tripleOf x = tripleOf e ∧ x.id < e.id then e else x
  else acc ++ [e]

/-- The DEDUPLICATE pass of the Pusher variant: keep one entry per
identity triple, preferring the larger id, first-seen key order. -/
def dedupeByTriple (view : View) : View :=
  view.foldl dedupeStep []

/-- The `(id, checked)` PATCH payloads issued by the checked branch of
the Pusher variant (lines 362-379): one call per deduplicated slot on
the side. -/
def checkCallsPusher (view : View) (target : Nat) (side : Side) : List (Nat × Bool) :=
  ((dedupeByTriple view).filter fun e => decide (e.side = side)).map fun e =>
    (e.id, decide (e.rowIndex = target))

/-- The Scenario B starting view: the full 12x2x2 grid with row 0 of the
left side checked (both its slots, as the check branch itself leaves
them). -/
def scenarioBView : View :=
  (List.range 12).flatMap fun row =>
    [Side.left, Side.right].flatMap fun s =>
      [Pos.P1, Pos.P2].map fun p =>
        ⟨row * 4 + sideKey s * 2 + posKey p + 1, row, s, p, "",
          decide (row = 0 ∧ s = Side.left), 0⟩

set_option maxRecDepth 10000 in
/-- Claim C7 counterexample: checking row 3 on the left while row 0 is
checked issues 4 updateEntry calls in QueueBoard.tsx (not 2), and the
Pusher variant issues 24 PATCH calls — one per slot of the side. -/
theorem scenarioB_not_two_calls :
    (checkCalls scenarioBView 3 .left).length = 4 ∧
      (checkCallsPusher scenarioBView 3 .left).length = 24 := by
  constructor <;> rfl

set_option maxRecDepth 10000 in
/-- Claim C7 amended: checking row 3 on `left` while row 0 on `left` is
checked settles with row 0 unchecked and row 3 checked; QueueBoard.tsx
issues exactly 4 updateSlot calls — checked:=true for both slots of
row 3 and checked:=false for both previously checked slots of row 0 —
while the Pusher variant issues 24 (one PATCH per slot of the side). -/
theorem scenarioB_behavior :
    (∀ e ∈ applyCheck scenarioBView 3 .left, e.side = .left →
      (e.rowIndex = 0 → e.checked = false) ∧ (e.rowIndex = 3 → e.checked = true)) ∧
    (checkCalls scenarioBView 3 .left = [(1, false), (2, false), (13, true), (14, true)]) ∧
    (checkCallsPusher scenarioBView 3 .left).length = 24 := by
  refine ⟨by decide, by rfl, by rfl⟩

/-! ### Rate limiter (claim C10)

`src/lib/rateLimit.ts`: the per-identifier window state is `{count,
resetTime}`; the function resets the window only when `resetTime < now`
holds STRICTLY, increments the count first and then checks it against
the limit. -/

/-- The stored `{count, resetTime}` cell of one identifier. -/
structure RLState where
  count : Nat
  resetTime : Nat
deriving DecidableEq, Repr

/-- The `{success, remaining, resetTime}` result of one rateLimit call. -/
structure RLResult where
  success : Bool
  remaining : Nat
  resetTime : Nat
deriving DecidableEq, Repr

/-- The `rateLimit` function for one identifier: its stored cell (none
when absent or cleaned up) and the current time map to a result and the
new cell. -/
def rateLimit (st : Option RLState) (now limit windowMs : Nat) :
    RLResult × RLState :=
  match st with
  | none => (⟨true, limit - 1, now + windowMs⟩, ⟨1, now + windowMs⟩)
  | some entry =>
      if entry.resetTime < now then
        (⟨true, limit - 1, now + windowMs⟩, ⟨1, now + windowMs⟩)
      else
        if entry.count + 1 > limit then
          (⟨false, 0, entry.resetTime⟩, ⟨entry.count + 1, entry.resetTime⟩)
        else
          (⟨true, limit - (entry.count + 1), entry.resetTime⟩,
            ⟨entry.count + 1, entry.resetTime⟩)

/-- A sequence of rateLimit calls at the given times, collecting the
results and threading the stored cell. -/
def runCalls (st : Option RLState) (times : List Nat) (limit windowMs : Nat) :
    List RLResult × Option RLState :=
  match times with
  | [] => ([], st)
  | t :: ts =>
      let r := rateLimit st t limit windowMs
      let rest := runCalls (some r.2) ts limit windowMs
      (r.1 :: rest.1, rest.2)

/-- Modelled from the claim's own words, for comparison with the code:
the j-th call of a window with reset time R should succeed with
`remaining = limit - j` while `j ≤ limit` and fail with `remaining = 0`
afterwards. -/
def expectedResult (limit R j : Nat) : RLResult :=
  if j ≤ limit then ⟨true, limit - j, R⟩ else ⟨false, 0, R⟩

theorem runCalls_in_window (limit windowMs R : Nat) :
    ∀ (ts : List Nat) (k : Nat), (∀ t ∈ ts, t ≤ R) →
      runCalls (some ⟨k, R⟩) ts limit windowMs =
        ((List.range ts.length).map (fun i => expectedResult limit R (k + 1 + i)),
          some ⟨k + ts.length, R⟩) := by
  intro ts
  induction ts with
  | nil => intro k _; rfl
  | cons t ts ih =>
    intro k h
    have hnr : ¬(R < t) := by
      have := h t (List.mem_cons_self t ts)
      omega
    have hstep : rateLimit (some ⟨k, R⟩) t limit windowMs =
        (expectedResult limit R (k + 1), ⟨k + 1, R⟩) := by
      by_cases hlim : k + 1 > limit
      · have h₂ : ¬(k + 1 ≤ limit) := by omega
        simp [rateLimit, expectedResult, hnr, hlim, h₂]
      · have h₂ : k + 1 ≤ limit := by omega
        simp [rateLimit, expectedResult, hnr, hlim, h₂]
    show (let r := rateLimit (some ⟨k, R⟩) t limit windowMs
          let rest := runCalls (some r.2) ts limit windowMs
          (r.1 :: rest.1, rest.2)) = _
    rw [hstep]
    dsimp only
    rw [ih (k + 1) fun u hu => h u (List.mem_cons_of_mem t hu)]
    rw [List.length_cons, List.range_succ_eq_map, List.map_cons, List.map_map]
    refine congrArg₂ Prod.mk (congrArg₂ List.cons rfl ?_) ?_
    · apply List.map_congr_left
      intro i _
      rw [Function.comp_apply]
      congr 1
      omega
    · rw [show k + 1 + ts.length = k + (ts.length + 1) from by omega]

/-- Claim C10 counterexample: with limit 1 and window 1000ms, the first
call at t=0 succeeds and sets resetTime 1000; a second call exactly AT
the reset time (t=1000) does not start a fresh window — `resetTime <
now` is strict — and is rejected, where the claim says the first call at
or after the reset time starts a fresh window and succeeds. -/
theorem rateLimit_at_reset_counterexample :
    (runCalls none [0, 1000] 1 1000).1 =
      [⟨true, 0, 1000⟩, ⟨false, 0, 1000⟩] := by
  rfl

/-- Claim C10 amended: for limit L ≥ 1 and any call sequence starting at
t₀ whose later timestamps all precede the reset time t₀+W, call number j
returns success with remaining = L - j while j ≤ L, and every further
call in the window fails with remaining 0 (the stored count still
incrementing); the first call STRICTLY after the reset time starts a
fresh window and succeeds with remaining L - 1. -/
theorem rateLimit_window_behavior (limit windowMs t₀ : Nat) (hl : 1 ≤ limit)
    (ts : List Nat) (hts : ∀ t ∈ ts, t < t₀ + windowMs)
    (tnext : Nat) (hnext : t₀ + windowMs < tnext) :
    (runCalls none (t₀ :: ts) limit windowMs =
      ((List.range (ts.length + 1)).map
        (fun i => expectedResult limit (t₀ + windowMs) (i + 1)),
        some ⟨1 + ts.length, t₀ + windowMs⟩)) ∧
    (rateLimit (some ⟨1 + ts.length, t₀ + windowMs⟩) tnext limit windowMs =
      (⟨true, limit - 1, tnext + windowMs⟩, ⟨1, tnext + windowMs⟩)) := by
  constructor
  · have hfirst : rateLimit none t₀ limit windowMs =
        (expectedResult limit (t₀ + windowMs) 1, ⟨1, t₀ + windowMs⟩) := by
      simp [rateLimit, expectedResult, hl]
    show (let r := rateLimit none t₀ limit windowMs
          let rest := runCalls (some r.2) ts limit windowMs
          (r.1 :: rest.1, rest.2)) = _
    rw [hfirst]
    dsimp only
    rw [runCalls_in_window limit windowMs (t₀ + windowMs) ts 1
      fun u hu => le_of_lt (hts u hu)]
    rw [List.range_succ_eq_map, List.map_cons, List.map_map]
    refine congrArg₂ Prod.mk (congrArg₂ List.cons rfl ?_) rfl
    apply List.map_congr_left
    intro i _
    rw [Function.comp_apply]
    congr 1
    omega
  · simp [rateLimit, hnext]

theorem rateLimit_window_behavior_witness :
    (runCalls none [0, 10, 20] 2 1000 =
      ((List.range 3).map (fun i => expectedResult 2 1000 (i + 1)),
        some ⟨3, 1000⟩)) ∧
    (rateLimit (some ⟨3, 1000⟩) 2000 2 1000 =
      (⟨true, 1, 3000⟩, ⟨1, 3000⟩)) := by
  have h := rateLimit_window_behavior 2 1000 0 (by decide) [10, 20] (by decide)
    2000 (by decide)
  exact h

end VHMBoard
